import Mathlib

/-!
Verification development for the gxchain2 full-node core: shallow embeddings of
the block synchronizer (`FullSynchronizer`), the miner worker (`Worker`), the
transaction journal (`Jonunal`), the libp2p peer-ban bookkeeping (`Libp2pNode`),
and the node-level pending-transaction loop (`Node`), together with theorems
settling the specification claims about them.

Machine integers: the TypeScript sources use JS numbers and BN for heights,
gas values and timestamps; all of them stay far below any overflow boundary in
the code paths modelled here, so they are embedded as `Nat` (with `Int` where
the source arithmetic can go negative).  Byte buffers are embedded as
`List Nat`.  Fallible calls are embedded as `Option`/`Except` or as explicit
outcome parameters.
-/

/-- Height-range fetch task of the synchronizer (fullsync.ts, `type Task`);
qualified because the bare name collides with a Lean builtin. -/
structure FullSynchronizer.Task where
  start : Nat
  count : Nat
deriving Repr, DecidableEq

/-- Transaction skeleton: the fields of a pool transaction that the worker and
the pending-transaction map inspect (sender address, nonce, effective gas
price, gas consumed when executed).  Hashes and addresses are embedded as
`Nat` identifiers. -/
structure Tx where
  sender : Nat
  nonce : Nat
  gasPrice : Nat
  gasUsed : Nat
deriving Repr, DecidableEq

/-! ## Jonunal (transaction journal), gxchain-tx-pool/src/jonunal.ts

The journal file is a byte sequence; `insert` appends `tx.serialize()`
followed by the two-byte delimiter `\r\n` (= bytes 13, 10).  `load` reads the
file as a sequence of chunks; for each chunk it appends the chunk to the
pending buffer, repeatedly splits records at the first delimiter occurrence,
decodes each record, and flushes the accumulated `batch` to the add-callback
once `batch.length > 1024`; after the per-chunk loop it additionally calls
the callback with the (non-reset) current batch when it is non-empty.
Serialization of a transaction is external (RLP); it is a parameter
`serialize`/`decode` of the model. -/

/-- Delimiter written after every journal record (jonunal.ts, `bufferSplit`). -/
def bufferSplit : List Nat := [13, 10]

/-- Index of the first occurrence of the two-byte delimiter 13, 10 in a byte
list, as computed by `Buffer.indexOf(bufferSplit)`; `none` when absent. -/
def indexOfDelim : List Nat → Option Nat
  | [] => none
  | [_] => none
  | a :: b :: rest =>
    if a = 13 ∧ b = 10 then some 0
    else (indexOfDelim (b :: rest)).map (· + 1)

theorem indexOfDelim_bound : ∀ (l : List Nat) (i : Nat), indexOfDelim l = some i → i + 2 ≤ l.length
  | [], i, h => by simp [indexOfDelim] at h
  | [_], i, h => by simp [indexOfDelim] at h
  | a :: b :: rest, i, h => by
    by_cases hab : a = 13 ∧ b = 10
    · simp [indexOfDelim, hab] at h
      simp [← h, List.length]
    · simp [indexOfDelim, hab] at h
      obtain ⟨j, hj, rfl⟩ := h
      have := indexOfDelim_bound (b :: rest) j hj
      simp [List.length] at this ⊢
      omega

/-- Inner `while (true)` loop of the `data` handler in `Jonunal.load`: splits
complete records off the buffer, appending each decoded transaction to the
batch and emitting the batch to the add-callback whenever its length exceeds
1024.  Returns (batches handed to the callback, current batch, leftover
buffer). -/
def processBuffer {τ : Type} (decode : List Nat → τ) :
    List Nat → List τ → List (List τ) × List τ × List Nat
  | buf, batch =>
    match h : indexOfDelim buf with
    | none => ([], batch, buf)
    | some i =>
      let tx := decode (buf.take i)
      let batch1 := batch ++ [tx]
      if batch1.length > 1024 then
        let rest := processBuffer decode (buf.drop (i + 2)) []
        (batch1 :: rest.1, rest.2)
      else
        processBuffer decode (buf.drop (i + 2)) batch1
  termination_by buf _ => buf.length
  decreasing_by
    all_goals
      simp only [List.length_drop]
      have := indexOfDelim_bound buf i h
      omega

/-- State of a `Jonunal.load` in progress: the unconsumed byte buffer, the
current batch (shared across chunks: the code never resets it after the
trailing per-chunk flush), and the list of batches delivered to the
add-callback so far. -/
structure LoadState (τ : Type) where
  bufferInput : List Nat
  batch : List τ
  delivered : List (List τ)

/-- One `data` event of `Jonunal.load`: concatenate the chunk onto the buffer,
run the record-splitting loop, and flush the final batch to the add-callback
when non-empty (without resetting it, exactly as the source does). -/
def Jonunal.onData {τ : Type} (decode : List Nat → τ) (st : LoadState τ) (chunk : List Nat) :
    LoadState τ :=
  let buf := st.bufferInput ++ chunk
  let r := processBuffer decode buf st.batch
  let delivered := st.delivered ++ r.1
  let delivered := if r.2.1.length > 0 then delivered ++ [r.2.1] else delivered
  { bufferInput := r.2.2, batch := r.2.1, delivered := delivered }

/-- Whole `Jonunal.load` run over the stream's chunk sequence: the list of
batches passed to the add-callback, in call order. -/
def Jonunal.load {τ : Type} (decode : List Nat → τ) (chunks : List (List Nat)) :
    List (List τ) :=
  (chunks.foldl (Jonunal.onData decode) ⟨[], [], []⟩).delivered

/-- File content produced by `Jonunal.insert` of each transaction in order:
every record is the transaction's serialization followed by the delimiter. -/
def Jonunal.insertAll {τ : Type} (serialize : τ → List Nat) (txs : List τ) : List Nat :=
  (txs.map (fun t => serialize t ++ bufferSplit)).flatten

/-! ## Libp2pNode ban bookkeeping, gxchain-network/src/p2p.ts (and the
unnamed variant with identical `ban`/`isBanned` bodies)

`banned` is a peer-id → expiry-timestamp map, embedded as an association
list; timestamps (`Date.now()` milliseconds) are `Nat`. -/

/-- Mutable state of `Libp2pNode` relevant to banning.  A JS `Map` has
unique keys, so `banned` is embedded as a key-to-value function
(`none` = key absent). -/
structure P2PState where
  started : Bool
  banned : Nat → Option Nat

/-- Pointwise `Map.set` on the banned map. -/
def setEntry (f : Nat → Option Nat) (k : Nat) (v : Nat) : Nat → Option Nat :=
  fun j => if j = k then some v else f j

/-- Pointwise `Map.delete` on the banned map. -/
def eraseEntry (f : Nat → Option Nat) (k : Nat) : Nat → Option Nat :=
  fun j => if j = k then none else f j

/-- Embedding of `Libp2pNode.ban(peerId, maxAge = 60000)`: when started, sets
the peer's ban expiry to `now + maxAge` and returns true; otherwise leaves the
map alone and returns false.  `now` is the `Date.now()` reading. -/
def Libp2pNode.ban (st : P2PState) (now : Nat) (peerId : Nat) (maxAge : Nat) :
    P2PState × Bool :=
  if !st.started then (st, false)
  else ({ st with banned := setEntry st.banned peerId (now + maxAge) }, true)

/-- Embedding of `Libp2pNode.isBanned(peerId)`: returns true when the stored
expiry is a truthy value greater than `now`; otherwise deletes the entry and
returns false.  (A stored expiry of 0 is falsy in JS; in this `Nat` model
`now < e` already forces `e ≠ 0`, and the model keeps the explicit check.) -/
def Libp2pNode.isBanned (st : P2PState) (now : Nat) (peerId : Nat) :
    P2PState × Bool :=
  match st.banned peerId with
  | some expireTime =>
    if expireTime ≠ 0 ∧ expireTime > now then (st, true)
    else ({ st with banned := eraseEntry st.banned peerId }, false)
  | none => ({ st with banned := eraseEntry st.banned peerId }, false)

/-! ## Ordered Task Queue (@gxchain2/utils `OrderedQueue`)

Modelled from the spec: the `OrderedQueue` implementation lives in the
`@gxchain2/utils` package, which is not among the provided sources; only its
caller (`FullSynchronizer`, fullsync.ts lines 52-68 and 158-171) is.  Per
spec section 3 (`OrderedResult`) and section 4.1, each task carries its
original input index, tasks complete in an arbitrary order, and the queue
buffers out-of-order completions, releasing them to the `result` event
strictly in index order.  The FullSynchronizer constructor forwards every
`result` event into the FIFO `resultQueue` channel drained by `processBlocks`,
so the consumer observes exactly the queue's emission order. -/

/-- Queue state: completed-but-unreleased results, the next index to release,
and the already-released results in release order. -/
structure OQState (α : Type) where
  buffered : List (Nat × α)
  nextEmit : Nat
  emitted : List (Nat × α)

/-- Result buffered for index `i`, if any (first match). -/
def lookupBuf {α : Type} (i : Nat) : List (Nat × α) → Option α
  | [] => none
  | x :: xs => if x.1 = i then some x.2 else lookupBuf i xs

/-- Remove the first buffered entry for index `i`. -/
def removeFirst {α : Type} (i : Nat) : List (Nat × α) → List (Nat × α)
  | [] => []
  | x :: xs => if x.1 = i then xs else x :: removeFirst i xs

theorem removeFirst_length_lt {α : Type} (i : Nat) :
    ∀ (l : List (Nat × α)) (r : α), lookupBuf i l = some r →
      (removeFirst i l).length < l.length
  | [], r, h => by simp [lookupBuf] at h
  | x :: xs, r, h => by
    by_cases hx : x.1 = i
    · simp [removeFirst, hx]
    · simp [lookupBuf, hx] at h
      have := removeFirst_length_lt i xs r h
      simp [removeFirst, hx, List.length]
      omega

/-- Release loop: while a result for `nextEmit` is buffered, move it to the
emitted list and advance `nextEmit`. -/
def OQState.drain {α : Type} (st : OQState α) : OQState α :=
  match h : lookupBuf st.nextEmit st.buffered with
  | none => st
  | some r =>
    OQState.drain
      { buffered := removeFirst st.nextEmit st.buffered
        nextEmit := st.nextEmit + 1
        emitted := st.emitted ++ [(st.nextEmit, r)] }
  termination_by st.buffered.length
  decreasing_by
    exact removeFirst_length_lt _ _ _ h

/-- Handle one task completion: buffer the tagged result, then release every
in-order result. -/
def OQState.step {α : Type} (st : OQState α) (c : Nat × α) : OQState α :=
  OQState.drain { st with buffered := st.buffered ++ [c] }

/-- Run the queue over a whole completion sequence, starting empty. -/
def runQueue {α : Type} (completions : List (Nat × α)) : OQState α :=
  completions.foldl OQState.step ⟨[], 0, []⟩

/-! ## FullSynchronizer, gxchain-core/src/sync/fullsync.ts -/

/-- Constructor options of `FullSynchronizer` (limit, count, timeoutBanTime,
errorBanTime), each optional. -/
structure FullSynchronizerOptions where
  limit : Option Nat := none
  count : Option Nat := none
  timeoutBanTime : Option Nat := none
  errorBanTime : Option Nat := none

/-- JS `options.x || default`: the default applies when the option is absent
or zero (0 is falsy). -/
def orDefault (v : Option Nat) (d : Nat) : Nat :=
  match v with
  | none => d
  | some x => if x = 0 then d else x

/-- Resolved configuration after the `FullSynchronizer` constructor ran
(fullsync.ts lines 33-55). -/
structure FullSyncConfig where
  limit : Nat
  count : Nat
  timeoutBanTime : Nat
  errorBanTime : Nat
deriving Repr, DecidableEq

/-- Embedding of the `FullSynchronizer` constructor's option resolution:
`count = options.count || 128`, `timeoutBanTime = options.timeoutBanTime ||
300000`, `errorBanTime = options.errorBanTime || 60000`,
`limit = options.limit || 16`. -/
def FullSynchronizer.mkConfig (o : FullSynchronizerOptions) : FullSyncConfig :=
  { limit := orDefault o.limit 16
    count := orDefault o.count 128
    timeoutBanTime := orDefault o.timeoutBanTime 300000
    errorBanTime := orDefault o.errorBanTime 60000 }

/-- Outcome of the `peer.getBlockHeaders(task.start, task.count)` request made
inside `FullSynchronizer.download`: a header list, a
`PeerRequestTimeoutError`, or any other error.  Headers are abstract (`β`). -/
inductive ReqResult (β : Type) where
  | success (headers : List β)
  | timeoutErr
  | otherErr
deriving Repr, DecidableEq

/-- Observable outcome of one `FullSynchronizer.download(task)` execution
after the peer was acquired: the peer's final idle flag, the ban applied to
it (duration in ms), the returned block list (`none` when the call threw),
and whether the error was re-thrown to the queue. -/
structure DownloadOutcome (β : Type) where
  peerIdleAfter : Bool
  banDuration : Option Nat
  result : Option (List β)
  rethrown : Bool
deriving Repr, DecidableEq

/-- Embedding of `FullSynchronizer.download` (fullsync.ts lines 71-111) from
the point where the idle peer has been acquired (`peer.idle = false`): on a
successful header request the peer is set idle and one header-only block per
header is returned; on failure the peer is set idle, banned for
`timeoutBanTime` on a `PeerRequestTimeoutError` and for `errorBanTime`
otherwise, and the error is re-thrown. -/
def FullSynchronizer.download {β : Type} (cfg : FullSyncConfig) (req : ReqResult β) :
    DownloadOutcome β :=
  match req with
  | .success headers => ⟨true, none, some headers, false⟩
  | .timeoutErr => ⟨true, some cfg.timeoutBanTime, none, true⟩
  | .otherErr => ⟨true, some cfg.errorBanTime, none, true⟩

/-- Task-partition loop of `FullSynchronizer.sync` (fullsync.ts lines
138-146): starting from `totalCount = bestHeight - latestHeight` and
`taskCount = 0`, while `totalCount > 0` insert
`{start: taskCount++ * count + latestHeight + 1, count: min count totalCount}`
and subtract `count`.  The guard `0 < count` makes the recursion total; the
constructor guarantees it (`options.count || 128` is never zero). -/
def FullSynchronizer.scheduleGo (count latestHeight : Nat) :
    Nat → Nat → List FullSynchronizer.Task
  | totalCount, taskCount =>
    if h : 0 < totalCount ∧ 0 < count then
      { start := taskCount * count + latestHeight + 1
        count := if totalCount > count then count else totalCount }
        :: FullSynchronizer.scheduleGo count latestHeight (totalCount - count) (taskCount + 1)
    else []
  termination_by totalCount _ => totalCount
  decreasing_by
    omega

/-- Tasks inserted into the download queue by `FullSynchronizer.sync` for a
given initial local height and best height. -/
def FullSynchronizer.scheduleTasks (latestHeight bestHeight count : Nat) :
    List FullSynchronizer.Task :=
  FullSynchronizer.scheduleGo count latestHeight (bestHeight - latestHeight) 0

/-- Best-peer scan of `FullSynchronizer.sync` (fullsync.ts lines 126-135):
starting from `bestHeight = latestHeight` and no best peer, each peer whose
height exceeds the running best becomes the best.  Peers are represented by
their advertised heights; the first component records the chosen best peer's
height (`none` when no peer exceeded the local height). -/
def FullSynchronizer.findBest (latestHeight : Nat) (peerHeights : List Nat) :
    Option Nat × Nat :=
  peerHeights.foldl
    (fun acc h => if h > acc.2 then (some h, h) else acc)
    (none, latestHeight)

/-- Environment of one `FullSynchronizer.sync` call: the local height read at
the start, the installed peers' advertised heights, whether the producer
promise body (task insertion and `downloadQueue.start`) ran without throwing,
whether the consumer promise body (the `processBlocks` loop) ran without
throwing, and the local height read at the end. -/
structure SyncEnv where
  localHeight : Nat
  peerHeights : List Nat
  producerOk : Bool
  consumerOk : Bool
  finalHeight : Nat
deriving Repr, DecidableEq

/-- Embedding of the result value of `FullSynchronizer.sync` (fullsync.ts
lines 113-175): the producer promise resolves true only when a best peer was
found and scheduling completed without error (with no best peer it resolves
false after aborting the result channel); the consumer promise resolves true
when the `processBlocks` loop finished without error; `sync` returns the
conjunction of both, and additionally requires the final local height to
equal the observed `bestHeight`. -/
def FullSynchronizer.sync (e : SyncEnv) : Bool :=
  let best := FullSynchronizer.findBest e.localHeight e.peerHeights
  let producerResult :=
    match best.1 with
    | some _ => e.producerOk
    | none => false
  (producerResult && e.consumerOk) && (best.2 == e.finalHeight)

/-- Restatement of claim C2's words (not of the source): sync succeeds iff
producer and consumer completed without error and the final height equals the
observed best height.  Kept separate so the claim can be compared with the
source-derived `FullSynchronizer.sync`. -/
def FullSynchronizer.syncClaimSpec (e : SyncEnv) : Bool :=
  e.producerOk && e.consumerOk
    && ((FullSynchronizer.findBest e.localHeight e.peerHeights).2 == e.finalHeight)

/-! ## PendingTxMap (@gxchain2/tx-pool)

Modelled from the spec: the `PendingTxMap` implementation lives in the
tx-pool package, which is not among the provided sources; only its consumer
(`Worker.commit`, worker.ts lines 167-203) is.  Per spec section 3, the map
groups transactions by sender, each sender's list strictly nonce-ordered,
and `peek()` returns the lowest-nonce unconsumed transaction of the sender
whose current head has the highest effective priority (gas price).  Per spec
section 4.7, the `pop()` used on execution failure advances past the whole
sender ("a single invalid transaction invalidates that sender's remaining
candidates for this round"), while `shift()` advances to the sender's next
transaction.  The map is embedded as a list of per-sender queues. -/

abbrev PendingTxMap : Type := List (List Tx)

/-- Index and head transaction of the non-empty sender queue whose head has
the maximal gas price (earliest queue wins ties). -/
def pickBest : List (List Tx) → Option (Nat × Tx)
  | [] => none
  | q :: qs =>
    let rest := (pickBest qs).map (fun p => (p.1 + 1, p.2))
    match q with
    | [] => rest
    | t :: _ =>
      match rest with
      | none => some (0, t)
      | some p => if p.2.gasPrice > t.gasPrice then some p else some (0, t)

/-- Modelled from the spec: `PendingTxMap.peek()` returns the highest-priority
sender's head transaction. -/
def PendingTxMap.peek (m : PendingTxMap) : Option Tx :=
  (pickBest m).map (fun p => p.2)

/-- Modelled from the spec: `PendingTxMap.pop()` advances past the whole
best sender, dropping all of its remaining transactions for this round. -/
def PendingTxMap.pop (m : PendingTxMap) : PendingTxMap :=
  match pickBest m with
  | none => m
  | some p => m.set p.1 []

/-- Modelled from the spec: `PendingTxMap.shift()` advances the best sender
to its next (higher-nonce) transaction. -/
def PendingTxMap.shift (m : PendingTxMap) : PendingTxMap :=
  match pickBest m with
  | none => m
  | some p => m.set p.1 ((m.getD p.1 []).tail)

/-! ## Worker, gxchain-core/src/miner/worker.ts

The state manager consumed by the worker is an external collaborator (spec
section 6): `checkpoint()` saves the current state, `revert()` restores the
last saved state discarding everything since, `commit()` makes the changes
since the last checkpoint permanent.  It is embedded as the current state
value plus a stack of saved states.  `runTx` is a parameter returning the
post-call state (possibly partially mutated on failure, which `revert` must
wipe) and the gas used on success, or `none` when it threw. -/

structure VMState (σ : Type) where
  cur : σ
  saved : List σ
deriving Repr, DecidableEq

/-- State-manager `checkpoint()`: push a savepoint of the current state. -/
def StateManager.checkpoint {σ : Type} (v : VMState σ) : VMState σ :=
  { v with saved := v.cur :: v.saved }

/-- State-manager `revert()`: restore the last savepoint, discarding all
changes made since it. -/
def StateManager.revert {σ : Type} (v : VMState σ) : VMState σ :=
  match v.saved with
  | [] => v
  | s :: rest => { cur := s, saved := rest }

/-- State-manager `commit()`: discard the last savepoint, keeping the current
state. -/
def StateManager.commitCp {σ : Type} (v : VMState σ) : VMState σ :=
  match v.saved with
  | [] => v
  | _ :: rest => { v with saved := rest }

/-- Per-block accumulator of the worker: the checkpointed state, the included
transactions (`this.txs`) and cumulative gas (`this.gasUsed`). -/
structure CommitState (σ : Type) where
  vm : VMState σ
  txs : List Tx
  gasUsed : Nat
deriving Repr, DecidableEq

/-- Total number of pending transactions, the termination measure of the
commit loop. -/
def PendingTxMap.total (m : PendingTxMap) : Nat :=
  (m.map List.length).sum

theorem pickBest_mem : ∀ (m : List (List Tx)) (i : Nat) (t : Tx),
    pickBest m = some (i, t) → ∃ q, m[i]? = some (t :: q)
  | [], i, t, h => by simp [pickBest] at h
  | [] :: qs, i, t, h => by
    simp only [pickBest] at h
    rcases hrest : pickBest qs with _ | ⟨p1, p2⟩ <;> rw [hrest] at h
    · simp at h
    · simp at h
      obtain ⟨hi, ht⟩ := h
      obtain ⟨q1, hq1⟩ := pickBest_mem qs p1 t (ht ▸ hrest)
      exact ⟨q1, by simp [← hi, hq1]⟩
  | (t0 :: q0) :: qs, i, t, h => by
    simp only [pickBest] at h
    rcases hrest : pickBest qs with _ | ⟨p1, p2⟩ <;> rw [hrest] at h
    · simp only [Option.map_none', Option.some.injEq, Prod.mk.injEq] at h
      exact ⟨q0, by simp [← h.1, ← h.2]⟩
    · by_cases hgt : p2.gasPrice > t0.gasPrice
      · simp [hgt] at h
        obtain ⟨hi, ht⟩ := h
        obtain ⟨q1, hq1⟩ := pickBest_mem qs p1 t (ht ▸ hrest)
        exact ⟨q1, by simp [← hi, hq1]⟩
      · simp [hgt] at h
        exact ⟨q0, by simp [← h.1, ← h.2]⟩

theorem total_set_lt (m : PendingTxMap) (i : Nat) (t : Tx) (q : List Tx)
    (hget : m[i]? = some (t :: q)) (r : List Tx) (hr : r.length < (t :: q).length) :
    PendingTxMap.total (m.set i r) < PendingTxMap.total m := by
  induction m generalizing i with
  | nil => simp at hget
  | cons a as ih =>
    match i with
    | 0 =>
      simp at hget
      subst hget
      simp [PendingTxMap.total, List.set]
      simp at hr
      omega
    | j + 1 =>
      simp at hget
      have := ih j hget
      simp [PendingTxMap.total, List.set] at this ⊢
      omega

theorem total_pop_lt (m : PendingTxMap) (t : Tx) (hp : PendingTxMap.peek m = some t) :
    PendingTxMap.total (PendingTxMap.pop m) < PendingTxMap.total m := by
  simp [PendingTxMap.peek] at hp
  obtain ⟨i, hpb⟩ := hp
  obtain ⟨q, hq⟩ := pickBest_mem m i t hpb
  simp [PendingTxMap.pop, hpb]
  exact total_set_lt m i t q hq [] (by simp)

theorem total_shift_lt (m : PendingTxMap) (t : Tx) (hp : PendingTxMap.peek m = some t) :
    PendingTxMap.total (PendingTxMap.shift m) < PendingTxMap.total m := by
  simp [PendingTxMap.peek] at hp
  obtain ⟨i, hpb⟩ := hp
  obtain ⟨q, hq⟩ := pickBest_mem m i t hpb
  simp only [PendingTxMap.shift, hpb]
  have hgetD : m.getD i [] = t :: q := by
    simp [List.getD_eq_getElem?_getD, hq]
  rw [hgetD, List.tail_cons]
  exact total_set_lt m i t q hq q (by simp)

/-- Embedding of the `Worker.commit` loop (worker.ts lines 167-203): while
`peek()` yields a transaction, `checkpoint()`; run it; when `runTx` throws,
`revert()` and `pop()`; when including it would exceed the block gas limit
(`header.gasLimit < txRes.gasUsed + this.gasUsed`), `revert()` and `pop()`;
otherwise `commit()`, append the transaction, add its gas, and `shift()`. -/
def Worker.commit {σ : Type} (runTx : Tx → σ → σ × Option Nat) (gasLimit : Nat) :
    PendingTxMap → CommitState σ → CommitState σ
  | m, cs =>
    match hp : PendingTxMap.peek m with
    | none => cs
    | some tx =>
      let v1 := StateManager.checkpoint cs.vm
      let run := runTx tx v1.cur
      let v2 := { v1 with cur := run.1 }
      match run.2 with
      | none =>
        Worker.commit runTx gasLimit (PendingTxMap.pop m)
          { cs with vm := StateManager.revert v2 }
      | some gas =>
        if gasLimit < gas + cs.gasUsed then
          Worker.commit runTx gasLimit (PendingTxMap.pop m)
            { cs with vm := StateManager.revert v2 }
        else
          Worker.commit runTx gasLimit (PendingTxMap.shift m)
            { vm := StateManager.commitCp v2
              txs := cs.txs ++ [tx]
              gasUsed := cs.gasUsed + gas }
  termination_by m _ => PendingTxMap.total m
  decreasing_by
    all_goals first
      | exact total_pop_lt m tx hp
      | exact total_shift_lt m tx hp

/-! ## Worker.getPendingBlock, worker.ts lines 129-153 -/

/-- Embedding of `calculateTransactionTrie` (tx package): the trie built from
key `rlp(i)` and value `tx.serialize()` for each included transaction, its
root identified with its contents (index–transaction pairs); the empty list
stands for the constant `emptyTxTrie` root. -/
def calculateTransactionTrie (txs : List Tx) : List (Nat × Tx) :=
  txs.enum

/-- Candidate-block fields of the worker that `getPendingBlock` consults:
the speculative header's number and parent hash, and the accumulated
transactions.  Hashes are `Nat` identifiers. -/
structure WorkerSnapshot where
  headerNumber : Nat
  parentHash : Nat
  txs : List Tx
deriving Repr, DecidableEq

/-- Observable fields of the block returned by `getPendingBlock`. -/
structure PendingBlock where
  number : Nat
  parentHash : Nat
  transactions : List Tx
  txTrie : List (Nat × Tx)
deriving Repr, DecidableEq

/-- Embedding of `Worker.getPendingBlock(number?, hash?)`: when both
arguments are given and `(number + 1, hash)` does not match the candidate
header's number and parent hash, a fresh block on the requested parent with
no transactions (and the empty transaction trie) is returned; otherwise the
cached candidate's transactions are returned under a recomputed transaction
trie. -/
def Worker.getPendingBlock (w : WorkerSnapshot) (number : Option Nat) (hash : Option Nat) :
    PendingBlock :=
  match number, hash with
  | some n, some h =>
    if ¬(n + 1 = w.headerNumber) ∨ ¬(h = w.parentHash) then
      { number := n + 1
        parentHash := h
        transactions := []
        txTrie := calculateTransactionTrie [] }
    else
      { number := w.headerNumber
        parentHash := w.parentHash
        transactions := w.txs
        txTrie := calculateTransactionTrie w.txs }
  | _, _ =>
    { number := w.headerNumber
      parentHash := w.parentHash
      transactions := w.txs
      txTrie := calculateTransactionTrie w.txs }

/-! ## Node.addPendingTxsLoop, node.ts lines 290-310

One iteration of the serialized `addPendingTxs` consumer: `txPool.addTxs`
returns per-transaction results plus the map of newly-ready transactions
(embedded as a list of per-sender lists); when any step throws, the `catch`
resolves the caller's promise with `txs.length` copies of `false`.  The
announce/worker steps run only when `readies.size > 0`; each may throw. -/

/-- One iteration of the `addPendingTxsLoop` consumer, returning the value
the submitted batch's promise is resolved with.  `txsLen` is the submitted
batch's length; `pool` is the outcome of `txPool.addTxs`; `announce` and
`worker` are the outcomes of the peer-announce step and `worker.addTxs`.
The iteration always resolves (total function): a throw anywhere is caught
and turned into `txs.length` copies of `false`. -/
def Node.addPendingTxsLoopIter (txsLen : Nat)
    (pool : Except Unit (List Bool × List (List Tx)))
    (announce : Except Unit Unit) (worker : Except Unit Unit) : List Bool :=
  match pool with
  | .error _ => List.replicate txsLen false
  | .ok r =>
    if r.2.length > 0 then
      match announce, worker with
      | .ok _, .ok _ => r.1
      | _, _ => List.replicate txsLen false
    else r.1

/-- Modelled from the spec: the peer-protocol request
`getBlockHeaders(startHeight, count) -> Header[]` (spec section 6) answers
with the headers of heights `start .. start + count - 1`, and `download`
wraps each header in a header-only block, so a task's result is its height
range in ascending order.  Blocks are identified by their heights. -/
def taskBlocks (t : FullSynchronizer.Task) : List Nat :=
  List.range' t.start t.count

/-- Reference batching of the journal's record loop: accumulate transactions
onto the running batch, emitting the batch exactly when it exceeds 1024
entries (i.e. at size 1025).  Returns (emitted batches, final batch). -/
def emitRec {τ : Type} (batch : List τ) : List τ → List (List τ) × List τ
  | [] => ([], batch)
  | t :: ts =>
    if batch.length + 1 > 1024 then
      let r := emitRec [] ts
      ((batch ++ [t]) :: r.1, r.2)
    else
      emitRec (batch ++ [t]) ts

/-! ## Step lemmas for the recursive definitions -/

theorem processBuffer_none {τ : Type} (decode : List Nat → τ) (buf : List Nat) (batch : List τ)
    (h : indexOfDelim buf = none) :
    processBuffer decode buf batch = ([], batch, buf) := by
  rw [processBuffer]
  split
  · rfl
  · rename_i i hi
    rw [h] at hi
    cases hi

theorem processBuffer_flush {τ : Type} (decode : List Nat → τ) (buf : List Nat) (batch : List τ)
    (i : Nat) (h : indexOfDelim buf = some i) (hlen : batch.length + 1 > 1024) :
    processBuffer decode buf batch =
      ((batch ++ [decode (buf.take i)]) :: (processBuffer decode (buf.drop (i + 2)) []).1,
        (processBuffer decode (buf.drop (i + 2)) []).2) := by
  conv_lhs => rw [processBuffer]
  split
  · rename_i hn
    rw [h] at hn
    cases hn
  · rename_i j hj
    rw [h] at hj
    cases hj
    simp only []
    rw [if_pos (by simpa using hlen)]

theorem processBuffer_cont {τ : Type} (decode : List Nat → τ) (buf : List Nat) (batch : List τ)
    (i : Nat) (h : indexOfDelim buf = some i) (hlen : batch.length + 1 ≤ 1024) :
    processBuffer decode buf batch =
      processBuffer decode (buf.drop (i + 2)) (batch ++ [decode (buf.take i)]) := by
  conv_lhs => rw [processBuffer]
  split
  · rename_i hn
    rw [h] at hn
    cases hn
  · rename_i j hj
    rw [h] at hj
    cases hj
    simp only []
    rw [if_neg (by simp; omega)]

theorem drain_none {α : Type} (st : OQState α)
    (h : lookupBuf st.nextEmit st.buffered = none) :
    OQState.drain st = st := by
  rw [OQState.drain]
  split
  · rfl
  · rename_i r hr
    rw [h] at hr
    cases hr

theorem drain_some {α : Type} (st : OQState α) (r : α)
    (h : lookupBuf st.nextEmit st.buffered = some r) :
    OQState.drain st =
      OQState.drain
        { buffered := removeFirst st.nextEmit st.buffered
          nextEmit := st.nextEmit + 1
          emitted := st.emitted ++ [(st.nextEmit, r)] } := by
  conv_lhs => rw [OQState.drain]
  split
  · rename_i hn
    rw [h] at hn
    cases hn
  · rename_i r1 hr
    rw [h] at hr
    cases hr
    rfl

theorem scheduleGo_stop (count latestHeight totalCount taskCount : Nat)
    (h : ¬(0 < totalCount ∧ 0 < count)) :
    FullSynchronizer.scheduleGo count latestHeight totalCount taskCount = [] := by
  rw [FullSynchronizer.scheduleGo]
  rw [dif_neg h]

theorem scheduleGo_step (count latestHeight totalCount taskCount : Nat)
    (h1 : 0 < totalCount) (h2 : 0 < count) :
    FullSynchronizer.scheduleGo count latestHeight totalCount taskCount =
      { start := taskCount * count + latestHeight + 1
        count := if totalCount > count then count else totalCount }
        :: FullSynchronizer.scheduleGo count latestHeight (totalCount - count) (taskCount + 1) := by
  conv_lhs => rw [FullSynchronizer.scheduleGo]
  rw [dif_pos ⟨h1, h2⟩]

theorem commit_none {σ : Type} (runTx : Tx → σ → σ × Option Nat) (gasLimit : Nat)
    (m : PendingTxMap) (cs : CommitState σ) (h : PendingTxMap.peek m = none) :
    Worker.commit runTx gasLimit m cs = cs := by
  rw [Worker.commit]
  split
  · rfl
  · rename_i tx htx
    rw [h] at htx
    cases htx

theorem commit_fail {σ : Type} (runTx : Tx → σ → σ × Option Nat) (gasLimit : Nat)
    (m : PendingTxMap) (cs : CommitState σ) (tx : Tx)
    (hpeek : PendingTxMap.peek m = some tx)
    (hfail : (runTx tx cs.vm.cur).2 = none) :
    Worker.commit runTx gasLimit m cs =
      Worker.commit runTx gasLimit (PendingTxMap.pop m) cs := by
  conv_lhs => rw [Worker.commit]
  split
  · rename_i hn
    rw [hpeek] at hn
    cases hn
  · rename_i tx1 htx
    rw [hpeek] at htx
    cases htx
    simp only []
    split
    · rename_i hr
      congr 1
    · rename_i gas hr
      exfalso
      have hcur : (StateManager.checkpoint cs.vm).cur = cs.vm.cur := rfl
      rw [hcur] at hr
      rw [hfail] at hr
      cases hr

theorem commit_exceed {σ : Type} (runTx : Tx → σ → σ × Option Nat) (gasLimit : Nat)
    (m : PendingTxMap) (cs : CommitState σ) (tx : Tx) (gas : Nat)
    (hpeek : PendingTxMap.peek m = some tx)
    (hok : (runTx tx cs.vm.cur).2 = some gas)
    (hgas : gasLimit < gas + cs.gasUsed) :
    Worker.commit runTx gasLimit m cs =
      Worker.commit runTx gasLimit (PendingTxMap.pop m) cs := by
  conv_lhs => rw [Worker.commit]
  split
  · rename_i hn
    rw [hpeek] at hn
    cases hn
  · rename_i tx1 htx
    rw [hpeek] at htx
    cases htx
    simp only []
    split
    · rename_i hr
      have hcur : (StateManager.checkpoint cs.vm).cur = cs.vm.cur := rfl
      rw [hcur, hok] at hr
      cases hr
    · rename_i gas1 hr
      have hcur : (StateManager.checkpoint cs.vm).cur = cs.vm.cur := rfl
      rw [hcur, hok] at hr
      cases hr
      rw [if_pos hgas]
      congr 1

theorem commit_ok {σ : Type} (runTx : Tx → σ → σ × Option Nat) (gasLimit : Nat)
    (m : PendingTxMap) (cs : CommitState σ) (tx : Tx) (gas : Nat)
    (hpeek : PendingTxMap.peek m = some tx)
    (hok : (runTx tx cs.vm.cur).2 = some gas)
    (hgas : ¬(gasLimit < gas + cs.gasUsed)) :
    Worker.commit runTx gasLimit m cs =
      Worker.commit runTx gasLimit (PendingTxMap.shift m)
        { vm := { cur := (runTx tx cs.vm.cur).1, saved := cs.vm.saved }
          txs := cs.txs ++ [tx]
          gasUsed := cs.gasUsed + gas } := by
  conv_lhs => rw [Worker.commit]
  split
  · rename_i hn
    rw [hpeek] at hn
    cases hn
  · rename_i tx1 htx
    rw [hpeek] at htx
    cases htx
    simp only []
    split
    · rename_i hr
      have hcur : (StateManager.checkpoint cs.vm).cur = cs.vm.cur := rfl
      rw [hcur, hok] at hr
      cases hr
    · rename_i gas1 hr
      have hcur : (StateManager.checkpoint cs.vm).cur = cs.vm.cur := rfl
      rw [hcur, hok] at hr
      cases hr
      rw [if_neg hgas]
      rfl

/-! ## Claim C4: download releases the peer and bans on failure -/

/-- C4: in every execution of `FullSynchronizer.download(task)` the acquired
peer is marked idle again whether the header request succeeds or fails; a
`PeerRequestTimeoutError` bans the peer for `timeoutBanTime` (default 300000
ms = 300 s), any other error bans it for the shorter `errorBanTime` (default
60000 ms = 60 s), and in both failure cases the error is re-thrown so the
task is retried. -/
theorem FullSynchronizer.download_release_and_ban (o : FullSynchronizerOptions) (β : Type)
    (headers : List β) :
    (∀ req : ReqResult β,
      (FullSynchronizer.download (FullSynchronizer.mkConfig o) req).peerIdleAfter = true)
    ∧ FullSynchronizer.download (FullSynchronizer.mkConfig o) (.success headers)
        = ⟨true, none, some headers, false⟩
    ∧ FullSynchronizer.download (FullSynchronizer.mkConfig o) (.timeoutErr : ReqResult β)
        = ⟨true, some (FullSynchronizer.mkConfig o).timeoutBanTime, none, true⟩
    ∧ FullSynchronizer.download (FullSynchronizer.mkConfig o) (.otherErr : ReqResult β)
        = ⟨true, some (FullSynchronizer.mkConfig o).errorBanTime, none, true⟩
    ∧ (o.timeoutBanTime = none → (FullSynchronizer.mkConfig o).timeoutBanTime = 300000)
    ∧ (o.errorBanTime = none → (FullSynchronizer.mkConfig o).errorBanTime = 60000) := by
  refine ⟨fun req => ?_, rfl, rfl, rfl, fun h => ?_, fun h => ?_⟩
  · cases req <;> rfl
  · simp [FullSynchronizer.mkConfig, h, orDefault]
  · simp [FullSynchronizer.mkConfig, h, orDefault]

/-- C4 witness: the theorem evaluated with default options at each request
outcome. -/
theorem FullSynchronizer.download_release_and_ban_witness :
    (FullSynchronizer.download (FullSynchronizer.mkConfig {}) (.timeoutErr : ReqResult Nat)).banDuration
        = some 300000
    ∧ (FullSynchronizer.download (FullSynchronizer.mkConfig {}) (.otherErr : ReqResult Nat)).banDuration
        = some 60000
    ∧ (FullSynchronizer.download (FullSynchronizer.mkConfig {}) (.success [7])).peerIdleAfter = true
    ∧ (FullSynchronizer.download (FullSynchronizer.mkConfig {}) (.timeoutErr : ReqResult Nat)).rethrown
        = true := by
  have h := FullSynchronizer.download_release_and_ban {} Nat [7]
  obtain ⟨hidle, hsucc, htime, herr, hdt, hde⟩ := h
  refine ⟨?_, ?_, ?_, ?_⟩
  · rw [htime, hdt rfl]
  · rw [herr, hde rfl]
  · exact hidle _
  · rw [htime]

/-! ## Claim C10: getPendingBlock on a mismatching parent -/

/-- C10: `Worker.getPendingBlock(number, hash)` with a pair that does not
match the current candidate's parent (`number + 1 ≠` candidate header number
or `hash ≠` candidate parent hash) returns a freshly built block on the
requested parent with an empty transaction list; only a matching pair
returns the accumulated candidate transactions with a recomputed
transactions trie. -/
theorem Worker.getPendingBlock_parent_check (w : WorkerSnapshot) (n h : Nat) :
    ((n + 1 ≠ w.headerNumber ∨ h ≠ w.parentHash) →
      Worker.getPendingBlock w (some n) (some h) =
        { number := n + 1, parentHash := h, transactions := [],
          txTrie := calculateTransactionTrie [] })
    ∧ (n + 1 = w.headerNumber → h = w.parentHash →
      Worker.getPendingBlock w (some n) (some h) =
        { number := w.headerNumber, parentHash := w.parentHash, transactions := w.txs,
          txTrie := calculateTransactionTrie w.txs }) := by
  constructor
  · intro hmis
    rw [Worker.getPendingBlock, if_pos hmis]
  · intro h1 h2
    rw [Worker.getPendingBlock, if_neg (by push_neg; exact ⟨h1, h2⟩)]

/-- C10 witness: the theorem evaluated on a candidate at header number 5,
parent hash 9, holding one transaction, with a mismatching and a matching
query pair. -/
theorem Worker.getPendingBlock_parent_check_witness :
    Worker.getPendingBlock ⟨5, 9, [⟨1, 0, 2, 3⟩]⟩ (some 3) (some 9) =
      { number := 4, parentHash := 9, transactions := [],
        txTrie := calculateTransactionTrie [] }
    ∧ Worker.getPendingBlock ⟨5, 9, [⟨1, 0, 2, 3⟩]⟩ (some 4) (some 9) =
      { number := 5, parentHash := 9, transactions := [⟨1, 0, 2, 3⟩],
        txTrie := calculateTransactionTrie [⟨1, 0, 2, 3⟩] } := by
  constructor
  · exact (Worker.getPendingBlock_parent_check ⟨5, 9, [⟨1, 0, 2, 3⟩]⟩ 3 9).1
      (by left; decide)
  · exact (Worker.getPendingBlock_parent_check ⟨5, 9, [⟨1, 0, 2, 3⟩]⟩ 4 9).2 rfl rfl

/-! ## Claim C9: addPendingTxs never rejects -/

/-- C9: `Node.addPendingTxs` never rejects: one iteration of the serialized
`addPendingTxsLoop` is a total function into a resolution value; when
`txPool.addTxs` (or the subsequent announce or worker step, run only when
some transactions became ready) throws, the promise is resolved with
`txs.length` copies of `false`; on success it is resolved with the pool's
per-transaction results. -/
theorem Node.addPendingTxsLoop_resolves (n : Nat)
    (pool : Except Unit (List Bool × List (List Tx)))
    (announce worker : Except Unit Unit) :
    (∀ e, pool = .error e →
      Node.addPendingTxsLoopIter n pool announce worker = List.replicate n false
      ∧ (Node.addPendingTxsLoopIter n pool announce worker).length = n)
    ∧ (∀ results readies, pool = .ok (results, readies) →
        (announce = .ok () ∧ worker = .ok ()) ∨ readies = [] →
        Node.addPendingTxsLoopIter n pool announce worker = results)
    ∧ (∀ results readies, pool = .ok (results, readies) → readies ≠ [] →
        announce = .error () ∨ worker = .error () →
        Node.addPendingTxsLoopIter n pool announce worker = List.replicate n false
        ∧ (Node.addPendingTxsLoopIter n pool announce worker).length = n) := by
  refine ⟨fun e he => ?_, fun results readies hok hsteps => ?_, fun results readies hok hne herr => ?_⟩
  · subst he
    exact ⟨rfl, by simp [Node.addPendingTxsLoopIter]⟩
  · subst hok
    rcases hsteps with ⟨ha, hw⟩ | hempty
    · subst ha; subst hw
      show (if readies.length > 0 then results else results) = results
      by_cases hr : readies.length > 0
      · rw [if_pos hr]
      · rw [if_neg hr]
    · subst hempty
      rfl
  · subst hok
    have hlen : readies.length > 0 := List.length_pos.mpr hne
    rcases herr with ha | hw
    · subst ha
      cases worker with
      | error u =>
        have hmain : Node.addPendingTxsLoopIter n (.ok (results, readies)) (.error ()) (.error u)
            = List.replicate n false := by
          show (if readies.length > 0 then List.replicate n false else results)
            = List.replicate n false
          rw [if_pos hlen]
        exact ⟨hmain, by rw [hmain]; simp⟩
      | ok u =>
        have hmain : Node.addPendingTxsLoopIter n (.ok (results, readies)) (.error ()) (.ok u)
            = List.replicate n false := by
          show (if readies.length > 0 then List.replicate n false else results)
            = List.replicate n false
          rw [if_pos hlen]
        exact ⟨hmain, by rw [hmain]; simp⟩
    · subst hw
      cases announce with
      | error u =>
        have hmain : Node.addPendingTxsLoopIter n (.ok (results, readies)) (.error u) (.error ())
            = List.replicate n false := by
          show (if readies.length > 0 then List.replicate n false else results)
            = List.replicate n false
          rw [if_pos hlen]
        exact ⟨hmain, by rw [hmain]; simp⟩
      | ok u =>
        have hmain : Node.addPendingTxsLoopIter n (.ok (results, readies)) (.ok u) (.error ())
            = List.replicate n false := by
          show (if readies.length > 0 then List.replicate n false else results)
            = List.replicate n false
          rw [if_pos hlen]
        exact ⟨hmain, by rw [hmain]; simp⟩

/-- C9 witness: the theorem evaluated at a two-transaction batch whose pool
step throws, and at a successful batch. -/
theorem Node.addPendingTxsLoop_resolves_witness :
    Node.addPendingTxsLoopIter 2 (.error ()) (.ok ()) (.ok ()) = [false, false]
    ∧ Node.addPendingTxsLoopIter 2 (.ok ([true, false], [])) (.ok ()) (.ok ())
        = [true, false]
    ∧ Node.addPendingTxsLoopIter 2 (.ok ([true, true], [[⟨1, 0, 2, 3⟩]])) (.error ()) (.ok ())
        = [false, false] := by
  refine ⟨?_, ?_, ?_⟩
  · exact ((Node.addPendingTxsLoop_resolves 2 (.error ()) (.ok ()) (.ok ())).1 () rfl).1
  · exact (Node.addPendingTxsLoop_resolves 2 (.ok ([true, false], [])) (.ok ()) (.ok ())).2.1
      [true, false] [] rfl (Or.inr rfl)
  · exact ((Node.addPendingTxsLoop_resolves 2 (.ok ([true, true], [[⟨1, 0, 2, 3⟩]])) (.error ()) (.ok ())).2.2
      [true, true] [[⟨1, 0, 2, 3⟩]] rfl (by decide) (Or.inl rfl)).1

/-! ## Claim C8: ban idempotence and expiry -/

/-- C8 counterexample: re-banning an already-banned peer CAN make `isBanned`
return false before the previously set expiry.  Peer 1 is banned at time 0
for 300000 ms (expiry 300000), then re-banned at time 1 for 60000 ms; the
stored expiry is reset to 61001, and at time 100000 — well before the
previous expiry 300000 — `isBanned` already returns false. -/
theorem Libp2pNode.ban_shortens_counterexample :
    (Libp2pNode.isBanned
      (Libp2pNode.ban
        (Libp2pNode.ban ⟨true, fun _ => none⟩ 0 1 300000).1
        1 1 60000).1
      100000 1).2 = false
    ∧ (Libp2pNode.isBanned
        (Libp2pNode.ban ⟨true, fun _ => none⟩ 0 1 300000).1
        100000 1).2 = true
    ∧ (100000 : Nat) < 300000 := by
  refine ⟨rfl, rfl, by norm_num⟩

/-- C8 (amended): `Libp2pNode.ban` on a started node resets the ban expiry to
`now + maxAge` unconditionally — re-banning an already-banned peer can
therefore shorten as well as extend the ban, and `isBanned` answers relative
to the latest-set expiry only.  Before that expiry `isBanned` returns true
and leaves the map unchanged; from the expiry on, the first `isBanned` query
returns false and removes the entry as a side effect, and subsequent queries
also return false. -/
theorem Libp2pNode.ban_isBanned_expiry (st : P2PState) (now id maxAge now1 now2 : Nat)
    (hstarted : st.started = true) :
    ((Libp2pNode.ban st now id maxAge).1.banned id = some (now + maxAge))
    ∧ (Libp2pNode.ban st now id maxAge).2 = true
    ∧ (now1 < now + maxAge →
        Libp2pNode.isBanned (Libp2pNode.ban st now id maxAge).1 now1 id
          = ((Libp2pNode.ban st now id maxAge).1, true))
    ∧ (now + maxAge ≤ now1 →
        (Libp2pNode.isBanned (Libp2pNode.ban st now id maxAge).1 now1 id).2 = false
        ∧ (Libp2pNode.isBanned (Libp2pNode.ban st now id maxAge).1 now1 id).1.banned id = none
        ∧ (Libp2pNode.isBanned
            (Libp2pNode.isBanned (Libp2pNode.ban st now id maxAge).1 now1 id).1 now2 id).2
            = false) := by
  have hban : Libp2pNode.ban st now id maxAge
      = ({ st with banned := setEntry st.banned id (now + maxAge) }, true) := by
    rw [Libp2pNode.ban, hstarted]
    rfl
  have hlook : setEntry st.banned id (now + maxAge) id = some (now + maxAge) := by
    simp [setEntry]
  refine ⟨by rw [hban]; exact hlook, by rw [hban], fun hlt => ?_, fun hge => ?_⟩
  · rw [hban]
    rw [Libp2pNode.isBanned]
    simp only [hlook]
    rw [if_pos ⟨by omega, hlt⟩]
  · rw [hban]
    have hcond : ¬((now + maxAge) ≠ 0 ∧ (now + maxAge) > now1) := by
      push_neg
      intro _
      omega
    have hfirst : Libp2pNode.isBanned { st with banned := setEntry st.banned id (now + maxAge) } now1 id
        = ({ st with banned := eraseEntry (setEntry st.banned id (now + maxAge)) id }, false) := by
      rw [Libp2pNode.isBanned]
      simp only [hlook]
      rw [if_neg hcond]
    have herase : (eraseEntry (setEntry st.banned id (now + maxAge)) id) id = none := by
      simp [eraseEntry]
    refine ⟨by rw [hfirst], by rw [hfirst]; exact herase, ?_⟩
    rw [hfirst]
    rw [Libp2pNode.isBanned]
    simp only [herase]

/-- C8 witness: the amended theorem evaluated for a fresh node banning peer 7
at time 10 for 50 ms, queried at times 59, 60 and 61. -/
theorem Libp2pNode.ban_isBanned_expiry_witness :
    ((Libp2pNode.ban ⟨true, fun _ => none⟩ 10 7 50).1.banned 7 = some 60)
    ∧ (Libp2pNode.isBanned (Libp2pNode.ban ⟨true, fun _ => none⟩ 10 7 50).1 59 7).2 = true
    ∧ (Libp2pNode.isBanned (Libp2pNode.ban ⟨true, fun _ => none⟩ 10 7 50).1 60 7).2 = false
    ∧ (Libp2pNode.isBanned
        (Libp2pNode.isBanned (Libp2pNode.ban ⟨true, fun _ => none⟩ 10 7 50).1 60 7).1 61 7).2
        = false := by
  have h59 := Libp2pNode.ban_isBanned_expiry ⟨true, fun _ => none⟩ 10 7 50 59 61 rfl
  have h60 := Libp2pNode.ban_isBanned_expiry ⟨true, fun _ => none⟩ 10 7 50 60 61 rfl
  refine ⟨h59.1, ?_, ?_, ?_⟩
  · rw [h59.2.2.1 (by norm_num)]
  · exact (h60.2.2.2 (by norm_num)).1
  · exact (h60.2.2.2 (by norm_num)).2.2

/-! ## Claim C2: success condition of FullSynchronizer.sync -/

theorem findBest_fold_snd (hs : List Nat) : ∀ (b : Option Nat) (m : Nat),
    (hs.foldl (fun acc h => if h > acc.2 then (some h, h) else acc) (b, m)).2
      = hs.foldl max m := by
  induction hs with
  | nil => intro b m; rfl
  | cons x t ih =>
    intro b m
    by_cases hx : x > m
    · simp only [List.foldl, if_pos hx]
      rw [ih (some x) x]
      congr 1
      omega
    · simp only [List.foldl, if_neg hx]
      rw [ih b m]
      congr 1
      omega

theorem findBest_fold_fst (hs : List Nat) : ∀ (b : Option Nat) (m : Nat),
    (hs.foldl (fun acc h => if h > acc.2 then (some h, h) else acc) (b, m)).1.isSome
      = (b.isSome || hs.any (fun h => decide (m < h))) := by
  induction hs with
  | nil => intro b m; simp
  | cons x t ih =>
    intro b m
    by_cases hx : x > m
    · simp only [List.foldl, if_pos hx]
      rw [ih (some x) x]
      have hmx : decide (m < x) = true := by simpa using hx
      simp [hmx]
    · simp only [List.foldl, if_neg hx]
      rw [ih b m]
      simp only [List.any_cons]
      have hmx : decide (m < x) = false := by simpa using hx
      rw [hmx]
      simp

theorem findBest_fst_iff (latestHeight : Nat) (peerHeights : List Nat) :
    (FullSynchronizer.findBest latestHeight peerHeights).1.isSome = true
      ↔ ∃ h ∈ peerHeights, latestHeight < h := by
  rw [FullSynchronizer.findBest]
  rw [show ((none, latestHeight) : Option Nat × Nat) = ((none : Option Nat), latestHeight) from rfl]
  rw [findBest_fold_fst]
  simp

/-- C2 counterexample: `FullSynchronizer.sync` is not the claimed
"producer ok ∧ consumer ok ∧ final height = observed best height".  With
local height 5, a single installed peer also at height 5, no errors anywhere
and an unchanged final height 5, the claim's condition holds, yet the code
returns false: no peer strictly exceeded the local height, so `best` stays
undefined and the producer promise resolves false without any error. -/
theorem FullSynchronizer.sync_claim_counterexample :
    FullSynchronizer.syncClaimSpec ⟨5, [5], true, true, 5⟩ = true
    ∧ FullSynchronizer.sync ⟨5, [5], true, true, 5⟩ = false := by
  constructor <;> rfl

/-- C2 (amended): `FullSynchronizer.sync` returns true iff the producer and
consumer promises completed without error, at least one installed peer
advertised a height strictly above the initial local height, and the final
local height equals the observed `bestHeight`; chain growth by the remote
peer during sync that leaves the final height different from the observed
`bestHeight` makes the result false even without an error, and so does the
absence of any peer above the local height. -/
theorem FullSynchronizer.sync_success_iff (e : SyncEnv) :
    FullSynchronizer.sync e = true ↔
      (e.producerOk = true ∧ e.consumerOk = true
        ∧ (∃ h ∈ e.peerHeights, e.localHeight < h)
        ∧ (FullSynchronizer.findBest e.localHeight e.peerHeights).2 = e.finalHeight) := by
  rw [FullSynchronizer.sync]
  rcases hb : (FullSynchronizer.findBest e.localHeight e.peerHeights).1 with _ | v
  · have : ¬∃ h ∈ e.peerHeights, e.localHeight < h := by
      rw [← findBest_fst_iff]
      rw [hb]
      simp
    simp only [hb]
    simp [this]
  · have hex : ∃ h ∈ e.peerHeights, e.localHeight < h := by
      rw [← findBest_fst_iff]
      rw [hb]
      rfl
    simp only [hb]
    simp [hex]
    exact and_assoc

/-! ## Claims C5 and C6: Worker.commit failure paths -/

/-- C6: whenever the `runTx` call of a commit-loop iteration throws, the
`catch` reverts the checkpoint, so the speculative state after the
catch-and-revert equals the state immediately before that transaction's
checkpoint, and the loop continues (past the sender) with the accumulator —
state, included transactions, gas — completely unchanged. -/
theorem Worker.commit_failed_tx_state_unchanged {σ : Type}
    (runTx : Tx → σ → σ × Option Nat) (gasLimit : Nat)
    (m : PendingTxMap) (cs : CommitState σ) (tx : Tx)
    (hpeek : PendingTxMap.peek m = some tx)
    (hfail : (runTx tx cs.vm.cur).2 = none) :
    StateManager.revert
        { StateManager.checkpoint cs.vm with
          cur := (runTx tx (StateManager.checkpoint cs.vm).cur).1 }
      = cs.vm
    ∧ Worker.commit runTx gasLimit m cs
      = Worker.commit runTx gasLimit (PendingTxMap.pop m) cs :=
  ⟨rfl, commit_fail runTx gasLimit m cs tx hpeek hfail⟩

/-- C6 witness: a throwing `runTx` (which garbles its scratch state by adding
77) leaves the commit loop's state untouched on a one-transaction map. -/
theorem Worker.commit_failed_tx_state_unchanged_witness :
    StateManager.revert
        { StateManager.checkpoint (⟨3, []⟩ : VMState Nat) with
          cur := ((fun (_ : Tx) (s : Nat) => (s + 77, (none : Option Nat))) ⟨1, 0, 5, 10⟩
            (StateManager.checkpoint (⟨3, []⟩ : VMState Nat)).cur).1 }
      = (⟨3, []⟩ : VMState Nat)
    ∧ Worker.commit (fun (_ : Tx) (s : Nat) => (s + 77, none)) 1000
        [[⟨1, 0, 5, 10⟩]] ⟨⟨3, []⟩, [], 0⟩
      = Worker.commit (fun (_ : Tx) (s : Nat) => (s + 77, none)) 1000
        (PendingTxMap.pop [[⟨1, 0, 5, 10⟩]]) ⟨⟨3, []⟩, [], 0⟩ :=
  Worker.commit_failed_tx_state_unchanged (fun _ s => (s + 77, none)) 1000
    [[⟨1, 0, 5, 10⟩]] ⟨⟨3, []⟩, [], 0⟩ ⟨1, 0, 5, 10⟩ (by decide) rfl

/-- C5 counterexample: dropping a gas-limit-exceeding transaction DOES
penalize the same sender's later transactions.  Sender 1 has transactions
t1 (gas 100) then t2 (gas 10) under block gas limit 50; t1 exceeds the
limit, the code calls `pop()`, the whole sender is skipped, and the round
ends with no transaction included even though t2 alone would fit. -/
theorem Worker.commit_gas_exceed_counterexample :
    (Worker.commit (fun t s => (s + 1, some t.gasUsed)) 50
        [[⟨1, 0, 5, 100⟩, ⟨1, 1, 5, 10⟩]] ⟨⟨0, []⟩, [], 0⟩).txs = []
    ∧ PendingTxMap.pop [[⟨1, 0, 5, 100⟩, ⟨1, 1, 5, 10⟩]] = [([] : List Tx)]
    ∧ (⟨1, 1, 5, 10⟩ : Tx).gasUsed + 0 ≤ 50 := by
  have h1 : Worker.commit (fun t s => (s + 1, some t.gasUsed)) 50
      [[⟨1, 0, 5, 100⟩, ⟨1, 1, 5, 10⟩]] (⟨⟨0, []⟩, [], 0⟩ : CommitState Nat)
      = Worker.commit (fun t s => (s + 1, some t.gasUsed)) 50
        (PendingTxMap.pop [[⟨1, 0, 5, 100⟩, ⟨1, 1, 5, 10⟩]]) ⟨⟨0, []⟩, [], 0⟩ :=
    commit_exceed _ 50 _ _ ⟨1, 0, 5, 100⟩ 100 (by decide) rfl (by norm_num)
  have h2 : Worker.commit (fun t s => (s + 1, some t.gasUsed)) 50
      (PendingTxMap.pop [[⟨1, 0, 5, 100⟩, ⟨1, 1, 5, 10⟩]]) (⟨⟨0, []⟩, [], 0⟩ : CommitState Nat)
      = ⟨⟨0, []⟩, [], 0⟩ :=
    commit_none _ 50 _ _ (by decide)
  refine ⟨?_, by decide, by decide⟩
  rw [h1, h2]

/-- C5 (amended): when the peeked transaction would push cumulative gas past
the block gas limit, the checkpoint is reverted — the state, included
transactions and cumulative gas are unchanged — and `pop()` is invoked, the
same whole-sender advance used on execution failure, so the sender's
remaining (even smaller) transactions are not reconsidered in this round. -/
theorem Worker.commit_gas_exceed_pops_sender {σ : Type}
    (runTx : Tx → σ → σ × Option Nat) (gasLimit : Nat)
    (m : PendingTxMap) (cs : CommitState σ) (tx : Tx) (gas : Nat)
    (hpeek : PendingTxMap.peek m = some tx)
    (hok : (runTx tx cs.vm.cur).2 = some gas)
    (hgas : gasLimit < gas + cs.gasUsed) :
    StateManager.revert
        { StateManager.checkpoint cs.vm with
          cur := (runTx tx (StateManager.checkpoint cs.vm).cur).1 }
      = cs.vm
    ∧ Worker.commit runTx gasLimit m cs
      = Worker.commit runTx gasLimit (PendingTxMap.pop m) cs :=
  ⟨rfl, commit_exceed runTx gasLimit m cs tx gas hpeek hok hgas⟩

/-- C5 witness: the amended theorem evaluated at the counterexample input
(sender 1, transactions of gas 100 then 10, block gas limit 50). -/
theorem Worker.commit_gas_exceed_pops_sender_witness :
    Worker.commit (fun t s => (s + 1, some t.gasUsed)) 50
        [[⟨1, 0, 5, 100⟩, ⟨1, 1, 5, 10⟩]] (⟨⟨0, []⟩, [], 0⟩ : CommitState Nat)
      = Worker.commit (fun t s => (s + 1, some t.gasUsed)) 50
        (PendingTxMap.pop [[⟨1, 0, 5, 100⟩, ⟨1, 1, 5, 10⟩]]) ⟨⟨0, []⟩, [], 0⟩ :=
  (Worker.commit_gas_exceed_pops_sender (fun t s => (s + 1, some t.gasUsed)) 50
    [[⟨1, 0, 5, 100⟩, ⟨1, 1, 5, 10⟩]] ⟨⟨0, []⟩, [], 0⟩ ⟨1, 0, 5, 100⟩ 100
    (by decide) rfl (by norm_num)).2

/-! ## Claim C1: ordered delivery of the Ordered Task Queue -/

theorem lookupBuf_mem {α : Type} (i : Nat) :
    ∀ (l : List (Nat × α)) (r : α), lookupBuf i l = some r → (i, r) ∈ l
  | [], r, h => by simp [lookupBuf] at h
  | x :: xs, r, h => by
    rcases x with ⟨x1, x2⟩
    by_cases hx : x1 = i
    · subst hx
      simp [lookupBuf] at h
      rw [← h]
      exact List.mem_cons_self _ _
    · simp only [lookupBuf, if_neg hx] at h
      exact List.mem_cons_of_mem _ (lookupBuf_mem i xs r h)

theorem lookupBuf_isSome_of_mem {α : Type} (i : Nat) (r : α) :
    ∀ (l : List (Nat × α)), (i, r) ∈ l → (lookupBuf i l).isSome = true
  | [], h => by simp at h
  | x :: xs, h => by
    by_cases hx : x.1 = i
    · simp [lookupBuf, hx]
    · rcases List.mem_cons.mp h with h1 | h1
      · exact absurd (congrArg Prod.fst h1.symm) hx
      · simp only [lookupBuf, if_neg hx]
        exact lookupBuf_isSome_of_mem i r xs h1

theorem removeFirst_perm {α : Type} (i : Nat) :
    ∀ (l : List (Nat × α)) (r : α), lookupBuf i l = some r →
      List.Perm l ((i, r) :: removeFirst i l)
  | [], r, h => by simp [lookupBuf] at h
  | x :: xs, r, h => by
    rcases x with ⟨x1, x2⟩
    by_cases hx : x1 = i
    · subst hx
      simp [lookupBuf] at h
      subst h
      simp only [removeFirst, if_pos rfl]
      exact List.Perm.refl _
    · simp only [lookupBuf, if_neg hx] at h
      have hperm := removeFirst_perm i xs r h
      simp only [removeFirst, if_neg hx]
      exact (hperm.cons (x1, x2)).trans (List.Perm.swap (i, r) (x1, x2) (removeFirst i xs))

theorem removeFirst_subset {α : Type} (i : Nat) (l : List (Nat × α)) (r : α)
    (h : lookupBuf i l = some r) (p : Nat × α) (hp : p ∈ removeFirst i l) : p ∈ l :=
  (removeFirst_perm i l r h).symm.subset (List.mem_cons_of_mem _ hp)

/-- Invariant preservation of the release loop: values stay correctly
tagged, the emitted list always equals the tagged prefix `0..nextEmit-1`,
the combined multiset of emitted and buffered results is unchanged, and on
return nothing for `nextEmit` remains buffered. -/
theorem drain_spec {α : Type} (f : Nat → α) :
    ∀ (n : Nat) (st : OQState α), st.buffered.length ≤ n →
      (∀ p ∈ st.buffered, p.2 = f p.1) →
      st.emitted = (List.range st.nextEmit).map (fun i => (i, f i)) →
      (∀ p ∈ (OQState.drain st).buffered, p.2 = f p.1)
      ∧ (OQState.drain st).emitted
          = (List.range (OQState.drain st).nextEmit).map (fun i => (i, f i))
      ∧ List.Perm ((OQState.drain st).emitted ++ (OQState.drain st).buffered)
          (st.emitted ++ st.buffered)
      ∧ lookupBuf (OQState.drain st).nextEmit (OQState.drain st).buffered = none := by
  intro n
  induction n with
  | zero =>
    intro st hlen hbuf hemit
    have hempty : st.buffered = [] := List.length_eq_zero.mp (Nat.le_zero.mp hlen)
    have hnone : lookupBuf st.nextEmit st.buffered = none := by
      rw [hempty]; rfl
    rw [drain_none st hnone]
    exact ⟨hbuf, hemit, List.Perm.refl _, hnone⟩
  | succ k ih =>
    intro st hlen hbuf hemit
    rcases hlook : lookupBuf st.nextEmit st.buffered with _ | r
    · rw [drain_none st hlook]
      exact ⟨hbuf, hemit, List.Perm.refl _, hlook⟩
    · have hr : r = f st.nextEmit := hbuf _ (lookupBuf_mem _ _ _ hlook)
      rw [drain_some st r hlook]
      have hlt := removeFirst_length_lt st.nextEmit st.buffered r hlook
      have hlen1 : (removeFirst st.nextEmit st.buffered).length ≤ k := by omega
      have hbuf1 : ∀ p ∈ removeFirst st.nextEmit st.buffered, p.2 = f p.1 :=
        fun p hp => hbuf p (removeFirst_subset _ _ _ hlook p hp)
      have hemit1 : st.emitted ++ [(st.nextEmit, r)]
          = (List.range (st.nextEmit + 1)).map (fun i => (i, f i)) := by
        rw [List.range_succ, List.map_append, ← hemit, hr]
        rfl
      obtain ⟨c1, c2, c3, c4⟩ := ih
        ⟨removeFirst st.nextEmit st.buffered, st.nextEmit + 1,
          st.emitted ++ [(st.nextEmit, r)]⟩ hlen1 hbuf1 hemit1
      refine ⟨c1, c2, ?_, c4⟩
      refine c3.trans ?_
      have hassoc : (st.emitted ++ [(st.nextEmit, r)]) ++ removeFirst st.nextEmit st.buffered
          = st.emitted ++ ((st.nextEmit, r) :: removeFirst st.nextEmit st.buffered) := by
        simp
      refine (List.Perm.of_eq hassoc).trans ?_
      exact List.Perm.append_left st.emitted (removeFirst_perm _ _ _ hlook).symm

/-- Invariant preservation along a whole completion sequence. -/
theorem foldl_step_inv {α : Type} (f : Nat → α) :
    ∀ (cs : List (Nat × α)) (st : OQState α),
      (∀ p ∈ cs, p.2 = f p.1) →
      (∀ p ∈ st.buffered, p.2 = f p.1) →
      st.emitted = (List.range st.nextEmit).map (fun i => (i, f i)) →
      lookupBuf st.nextEmit st.buffered = none →
      (∀ p ∈ (cs.foldl OQState.step st).buffered, p.2 = f p.1)
      ∧ (cs.foldl OQState.step st).emitted
          = (List.range (cs.foldl OQState.step st).nextEmit).map (fun i => (i, f i))
      ∧ List.Perm ((cs.foldl OQState.step st).emitted ++ (cs.foldl OQState.step st).buffered)
          (st.emitted ++ st.buffered ++ cs)
      ∧ lookupBuf (cs.foldl OQState.step st).nextEmit (cs.foldl OQState.step st).buffered
          = none
  | [], st, hcs, hbuf, hemit, hdrained => ⟨hbuf, hemit, by simp, hdrained⟩
  | c :: cs, st, hcs, hbuf, hemit, hdrained => by
    have hbufB : ∀ p ∈ ({ st with buffered := st.buffered ++ [c] } : OQState α).buffered,
        p.2 = f p.1 := by
      intro p hp
      rcases List.mem_append.mp hp with h1 | h1
      · exact hbuf p h1
      · have hpc : p = c := by simpa using h1
        rw [hpc]
        exact hcs c (List.mem_cons_self c cs)
    have hemitB : ({ st with buffered := st.buffered ++ [c] } : OQState α).emitted
        = (List.range ({ st with buffered := st.buffered ++ [c] } : OQState α).nextEmit).map
            (fun i => (i, f i)) := hemit
    obtain ⟨d1, d2, d3, d4⟩ := drain_spec f
      ({ st with buffered := st.buffered ++ [c] } : OQState α).buffered.length
      { st with buffered := st.buffered ++ [c] } (le_refl _) hbufB hemitB
    obtain ⟨e1, e2, e3, e4⟩ := foldl_step_inv f cs
      (OQState.drain { st with buffered := st.buffered ++ [c] })
      (fun p hp => hcs p (List.mem_cons_of_mem c hp)) d1 d2 d4
    have hunfold : (c :: cs).foldl OQState.step st
        = cs.foldl OQState.step (OQState.drain { st with buffered := st.buffered ++ [c] }) :=
      rfl
    rw [hunfold]
    refine ⟨e1, e2, ?_, e4⟩
    refine e3.trans ((d3.append_right cs).trans ?_)
    have heq : (({ st with buffered := st.buffered ++ [c] } : OQState α).emitted
          ++ ({ st with buffered := st.buffered ++ [c] } : OQState α).buffered) ++ cs
        = st.emitted ++ st.buffered ++ (c :: cs) := by
      simp
    exact List.Perm.of_eq heq

/-- Main ordering result on the queue model, shared by the ordered-delivery
and synchronizer-scenario theorems. -/
theorem runQueue_perm_spec {α : Type} (n : Nat) (f : Nat → α)
    (cs : List (Nat × α))
    (hperm : List.Perm cs ((List.range n).map (fun i => (i, f i)))) :
    (runQueue cs).emitted = (List.range n).map (fun i => (i, f i))
    ∧ (runQueue cs).emitted.map Prod.fst = List.range n := by
  have hcs : ∀ p ∈ cs, p.2 = f p.1 := by
    intro p hp
    obtain ⟨i, _, he⟩ := List.mem_map.mp (hperm.subset hp)
    rw [← he]
  obtain ⟨b1, hemit0, hperm0, hdrain0⟩ := foldl_step_inv f cs ⟨[], 0, []⟩ hcs
    (by intro p hp; simp at hp) rfl rfl
  have hemit1 : (runQueue cs).emitted
      = (List.range (runQueue cs).nextEmit).map (fun i => (i, f i)) := hemit0
  have hdrain1 : lookupBuf (runQueue cs).nextEmit (runQueue cs).buffered = none := hdrain0
  have hall : List.Perm ((runQueue cs).emitted ++ (runQueue cs).buffered)
      ((List.range n).map (fun i => (i, f i))) := by
    exact (hperm0.trans (List.Perm.of_eq (by simp))).trans hperm
  have hlenall := hall.length_eq
  rw [List.length_append, List.length_map, List.length_range] at hlenall
  have hlene : (runQueue cs).emitted.length = (runQueue cs).nextEmit := by
    rw [hemit1, List.length_map, List.length_range]
  rcases Nat.lt_or_ge (runQueue cs).nextEmit n with hk | hk
  · exfalso
    have hkfull : ((runQueue cs).nextEmit, f (runQueue cs).nextEmit)
        ∈ (List.range n).map (fun i => (i, f i)) :=
      List.mem_map.mpr ⟨(runQueue cs).nextEmit, List.mem_range.mpr hk, rfl⟩
    have hmem : ((runQueue cs).nextEmit, f (runQueue cs).nextEmit)
        ∈ (runQueue cs).emitted ++ (runQueue cs).buffered := hall.mem_iff.mpr hkfull
    rcases List.mem_append.mp hmem with h1 | h1
    · rw [hemit1] at h1
      obtain ⟨i, hi, he⟩ := List.mem_map.mp h1
      have hik : i = (runQueue cs).nextEmit := congrArg Prod.fst he
      rw [hik] at hi
      exact absurd (List.mem_range.mp hi) (lt_irrefl _)
    · have hsome := lookupBuf_isSome_of_mem (runQueue cs).nextEmit
        (f (runQueue cs).nextEmit) (runQueue cs).buffered h1
      rw [hdrain1] at hsome
      simp at hsome
  · have hkn : (runQueue cs).nextEmit = n := by omega
    refine ⟨by rw [hemit1, hkn], ?_⟩
    rw [hemit1, hkn, List.map_map]
    have hcomp : (Prod.fst ∘ fun i => (i, f i)) = (id : Nat → Nat) := funext fun i => rfl
    rw [hcomp, List.map_id]

/-- C1: for every completion order of the tasks (any permutation of the
index-tagged results, as produced by the download queue and forwarded
through the FIFO `resultQueue` channel into `processBlocks`), the consumer
receives exactly the results of tasks `0..n-1`, each tagged with its own
result, in strictly increasing original-index order: it never observes
result `i+1` before result `i`. -/
theorem OrderedQueue_in_order_delivery {α : Type} (n : Nat) (f : Nat → α)
    (cs : List (Nat × α))
    (hperm : List.Perm cs ((List.range n).map (fun i => (i, f i)))) :
    (runQueue cs).emitted = (List.range n).map (fun i => (i, f i))
    ∧ (runQueue cs).emitted.map Prod.fst = List.range n :=
  runQueue_perm_spec n f cs hperm

/-- C1 witness: two tasks completing out of order (task 1 first) are still
delivered as result 0 then result 1. -/
theorem OrderedQueue_in_order_delivery_witness :
    (runQueue [(1, 10), (0, 0)]).emitted = [(0, 0), (1, 10)] := by
  have h := OrderedQueue_in_order_delivery 2 (fun i => i * 10) [(1, 10), (0, 0)] (by decide)
  rw [h.1]
  rfl

/-! ## Claim C3: task partition and in-order application scenario -/

theorem scheduleGo_spec (c L : Nat) (hc : 0 < c) :
    ∀ (N total tc : Nat), total ≤ N → 0 < total →
      (FullSynchronizer.scheduleGo c L total tc).length = (total + c - 1) / c
      ∧ ∀ k, k < (FullSynchronizer.scheduleGo c L total tc).length →
          (FullSynchronizer.scheduleGo c L total tc).getD k ⟨0, 0⟩
            = ⟨(tc + k) * c + L + 1, min c (total - k * c)⟩ := by
  intro N
  induction N with
  | zero =>
    intro total tc hN htotal
    omega
  | succ N ih =>
    intro total tc hN htotal
    rw [scheduleGo_step c L total tc htotal hc]
    by_cases hcase : total ≤ c
    · have hzero : total - c = 0 := by omega
      rw [hzero, scheduleGo_stop c L 0 (tc + 1) (by omega)]
      constructor
      · have : (total + c - 1) / c = 1 :=
          Nat.div_eq_of_lt_le (by omega) (by omega)
        simp [this]
      · intro k hk
        simp at hk
        subst hk
        have hif : (if total > c then c else total) = total := by
          rw [if_neg (by omega)]
        rw [List.getD_cons_zero, hif]
        have hmin : min c (total - 0 * c) = total := by
          simp
          omega
        rw [hmin]
        norm_num
    · push_neg at hcase
      have hrec := ih (total - c) (tc + 1) (by omega) (by omega)
      constructor
      · rw [List.length_cons, hrec.1]
        have h1 : total + c - 1 = (total - 1) + c := by omega
        have h2 : total - c + c - 1 = total - 1 := by omega
        rw [h1, h2, Nat.add_div_right _ hc]
      · intro k hk
        match k with
        | 0 =>
          rw [List.getD_cons_zero]
          have hif : (if total > c then c else total) = c := by
            rw [if_pos (by omega)]
          rw [hif]
          have hmin : min c (total - 0 * c) = c := by
            simp
            omega
          rw [hmin]
          simp
        | k + 1 =>
          rw [List.getD_cons_succ]
          rw [List.length_cons] at hk
          have hrk := hrec.2 k (by omega)
          rw [hrk]
          have hstart : (tc + 1 + k) * c + L + 1 = (tc + (k + 1)) * c + L + 1 := by
            ring_nf
          have hcount : total - c - k * c = total - (k + 1) * c := by
            rw [Nat.sub_sub]
            congr 1
            ring
          rw [hstart, hcount]

/-- C3: with local height 10, best peer height 20, `count = 5`, the sync
loop schedules exactly the two tasks `{start 11, count 5}` and
`{start 16, count 5}`; in general for `0 < count` and local height `L <
best height B` it partitions `(L, B]` into `ceil((B-L)/count)` tasks whose
k-th element is `{start := k*count + L + 1, count := min count (B-L-k*count)}`;
the consumer applies the scenario's blocks 11..20 strictly in ascending
order however the two download tasks complete; and the scenario's sync run
(no errors, final height 20) reports success. -/
theorem FullSynchronizer.sync_partition_scenario :
    FullSynchronizer.scheduleTasks 10 20 5 = [⟨11, 5⟩, ⟨16, 5⟩]
    ∧ (∀ L B c, 0 < c → L < B →
        (FullSynchronizer.scheduleTasks L B c).length = (B - L + c - 1) / c
        ∧ ∀ k, k < (FullSynchronizer.scheduleTasks L B c).length →
            (FullSynchronizer.scheduleTasks L B c).getD k ⟨0, 0⟩
              = ⟨k * c + L + 1, min c (B - L - k * c)⟩)
    ∧ (∀ cs : List (Nat × List Nat),
        List.Perm cs ((List.range 2).map (fun i =>
          (i, taskBlocks ((FullSynchronizer.scheduleTasks 10 20 5).getD i ⟨0, 0⟩)))) →
        ((runQueue cs).emitted.map Prod.snd).flatten = List.range' 11 10)
    ∧ FullSynchronizer.sync ⟨10, [20], true, true, 20⟩ = true := by
  have e1 := scheduleGo_step 5 10 10 0 (by norm_num) (by norm_num)
  have e2 := scheduleGo_step 5 10 5 1 (by norm_num) (by norm_num)
  have e3 := scheduleGo_stop 5 10 0 2 (by norm_num)
  norm_num at e1 e2
  have hsched : FullSynchronizer.scheduleTasks 10 20 5 = [⟨11, 5⟩, ⟨16, 5⟩] := by
    rw [show FullSynchronizer.scheduleTasks 10 20 5
        = FullSynchronizer.scheduleGo 5 10 10 0 from rfl]
    rw [e1, e2, e3]
  refine ⟨hsched, fun L B c hc hLB => ?_, fun cs hperm => ?_, rfl⟩
  · have hspec := scheduleGo_spec c L hc (B - L) (B - L) 0 (le_refl _) (by omega)
    exact ⟨hspec.1, fun k hk => by
      have := hspec.2 k hk
      simpa using this⟩
  · have hemit := (runQueue_perm_spec 2
      (fun i => taskBlocks ((FullSynchronizer.scheduleTasks 10 20 5).getD i ⟨0, 0⟩))
      cs hperm).1
    rw [hemit]
    rw [hsched]
    decide

/-- C3 witness: parts of the scenario theorem instantiated at the in-order
completion sequence and at the concrete partition arguments. -/
theorem FullSynchronizer.sync_partition_scenario_witness :
    ((runQueue ((List.range 2).map (fun i =>
        (i, taskBlocks ((FullSynchronizer.scheduleTasks 10 20 5).getD i ⟨0, 0⟩))))).emitted.map
      Prod.snd).flatten = List.range' 11 10
    ∧ (FullSynchronizer.scheduleTasks 10 20 5).length = (20 - 10 + 5 - 1) / 5 := by
  refine ⟨FullSynchronizer.sync_partition_scenario.2.2.1 _ (List.Perm.refl _),
    (FullSynchronizer.sync_partition_scenario.2.1 10 20 5 (by norm_num) (by norm_num)).1⟩

/-! ## Claim C7: journal round trip -/

theorem indexOfDelim_append_delim : ∀ (s r : List Nat), indexOfDelim s = none →
    indexOfDelim (s ++ 13 :: 10 :: r) = some s.length
  | [], r, _ => by simp [indexOfDelim]
  | [a], r, _ => by
    simp only [List.cons_append, List.nil_append, indexOfDelim]
    rw [if_neg (by simp)]
    simp [indexOfDelim]
  | a :: b :: s2, r, h => by
    simp only [indexOfDelim] at h
    by_cases hab : a = 13 ∧ b = 10
    · rw [if_pos hab] at h
      cases h
    · rw [if_neg hab] at h
      have h2 : indexOfDelim (b :: s2) = none := by
        rcases hidx : indexOfDelim (b :: s2) with _ | j
        · rfl
        · rw [hidx] at h
          simp at h
      have hrec := indexOfDelim_append_delim (b :: s2) r h2
      simp only [List.cons_append, indexOfDelim]
      rw [if_neg hab]
      rw [show (b :: s2) ++ 13 :: 10 :: r = b :: (s2 ++ 13 :: 10 :: r) from rfl] at hrec
      simp only [List.append_eq]
      rw [hrec]
      simp

theorem journal_take (s r : List Nat) : (s ++ 13 :: 10 :: r).take s.length = s :=
  List.take_left s (13 :: 10 :: r)

theorem journal_drop (s r : List Nat) : (s ++ 13 :: 10 :: r).drop (s.length + 2) = r := by
  rw [show s ++ 13 :: 10 :: r = (s ++ [13, 10]) ++ r by simp]
  rw [show s.length + 2 = (s ++ [13, 10]).length by simp]
  exact List.drop_left _ _

theorem emitRec_flatten {τ : Type} : ∀ (ts : List τ) (batch : List τ),
    (emitRec batch ts).1.flatten ++ (emitRec batch ts).2 = batch ++ ts
  | [], batch => by simp [emitRec]
  | t :: ts, batch => by
    by_cases hb : batch.length + 1 > 1024
    · simp only [emitRec, if_pos hb, List.flatten_cons, List.append_assoc]
      rw [emitRec_flatten ts []]
      simp
    · simp only [emitRec, if_neg hb]
      rw [emitRec_flatten ts (batch ++ [t])]
      simp

theorem emitRec_sizes {τ : Type} : ∀ (ts : List τ) (batch : List τ), batch.length ≤ 1024 →
    (∀ b ∈ (emitRec batch ts).1, b.length ≤ 1025) ∧ (emitRec batch ts).2.length ≤ 1024
  | [], batch, hb => by
    simp only [emitRec]
    exact ⟨by intro b hbm; simp at hbm, hb⟩
  | t :: ts, batch, hb => by
    by_cases hflush : batch.length + 1 > 1024
    · simp only [emitRec, if_pos hflush]
      have hr := emitRec_sizes ts [] (by norm_num)
      refine ⟨?_, hr.2⟩
      intro b hbm
      rcases List.mem_cons.mp hbm with h1 | h1
      · rw [h1]
        simp
        omega
      · exact hr.1 b h1
    · simp only [emitRec, if_neg hflush]
      exact emitRec_sizes ts (batch ++ [t]) (by simp; omega)

theorem emitRec_exact {τ : Type} : ∀ (ts : List τ) (batch : List τ), ts ≠ [] →
    batch.length + ts.length = 1025 → emitRec batch ts = ([batch ++ ts], [])
  | [], batch, hne, _ => absurd rfl hne
  | t :: ts, batch, _, hlen => by
    by_cases hflush : batch.length + 1 > 1024
    · have hts : ts = [] := by
        have hl : ts.length = 0 := by
          simp at hlen
          omega
        exact List.length_eq_zero.mp hl
      subst hts
      simp [emitRec, if_pos hflush]
    · have htsne : ts ≠ [] := by
        intro hcontra
        subst hcontra
        simp at hlen
        omega
      simp only [emitRec, if_neg hflush]
      rw [emitRec_exact ts (batch ++ [t]) htsne (by simp at hlen ⊢; omega)]
      simp

/-- Record-splitting loop over a well-formed journal followed by
non-delimited trailing bytes: it decodes exactly the journaled transactions
in order, batching them like `emitRec`, and leaves the trailing bytes
unconsumed. -/
theorem processBuffer_journal {τ : Type} (decode : List Nat → τ) (serialize : τ → List Nat) :
    ∀ (txs : List τ) (g : List Nat) (batch : List τ),
      (∀ t ∈ txs, indexOfDelim (serialize t) = none ∧ decode (serialize t) = t) →
      indexOfDelim g = none →
      processBuffer decode (Jonunal.insertAll serialize txs ++ g) batch
        = ((emitRec batch txs).1, (emitRec batch txs).2, g)
  | [], g, batch, _, hg => by
    simp only [Jonunal.insertAll, List.map_nil, List.flatten_nil, List.nil_append]
    rw [processBuffer_none decode g batch hg]
    rfl
  | t :: ts, g, batch, henc, hg => by
    have hs := henc t (List.mem_cons_self t ts)
    have hbuf : Jonunal.insertAll serialize (t :: ts) ++ g
        = serialize t ++ 13 :: 10 :: (Jonunal.insertAll serialize ts ++ g) := by
      simp only [Jonunal.insertAll, List.map_cons, List.flatten_cons, bufferSplit]
      simp
    rw [hbuf]
    have hidx := indexOfDelim_append_delim (serialize t) (Jonunal.insertAll serialize ts ++ g)
      hs.1
    have htake : (serialize t ++ 13 :: 10 :: (Jonunal.insertAll serialize ts ++ g)).take
        (serialize t).length = serialize t := journal_take _ _
    have hdrop : (serialize t ++ 13 :: 10 :: (Jonunal.insertAll serialize ts ++ g)).drop
        ((serialize t).length + 2) = Jonunal.insertAll serialize ts ++ g := journal_drop _ _
    by_cases hflush : batch.length + 1 > 1024
    · rw [processBuffer_flush decode _ batch (serialize t).length hidx hflush]
      rw [hdrop]
      rw [processBuffer_journal decode serialize ts g []
        (fun x hx => henc x (List.mem_cons_of_mem t hx)) hg]
      rw [htake, hs.2]
      simp only [emitRec, if_pos hflush]
    · rw [processBuffer_cont decode _ batch (serialize t).length hidx (by omega)]
      rw [hdrop, htake, hs.2]
      rw [processBuffer_journal decode serialize ts g (batch ++ [t])
        (fun x hx => henc x (List.mem_cons_of_mem t hx)) hg]
      simp only [emitRec, if_neg hflush]

/-- A single-chunk `Jonunal.load` of a well-formed journal delivers exactly
the `emitRec` batches plus the trailing (non-reset) batch. -/
theorem load_single_eq {τ : Type} (decode : List Nat → τ) (serialize : τ → List Nat)
    (txs : List τ) (g : List Nat)
    (henc : ∀ t ∈ txs, indexOfDelim (serialize t) = none ∧ decode (serialize t) = t)
    (hg : indexOfDelim g = none) :
    Jonunal.load decode [Jonunal.insertAll serialize txs ++ g]
      = (emitRec [] txs).1
        ++ (if (emitRec [] txs).2.length > 0 then [(emitRec [] txs).2] else []) := by
  have hpb := processBuffer_journal decode serialize txs g [] henc hg
  show (Jonunal.onData decode ⟨[], [], []⟩ (Jonunal.insertAll serialize txs ++ g)).delivered = _
  simp only [Jonunal.onData, List.nil_append, hpb]
  by_cases hrem : (emitRec [] txs).2.length > 0
  · rw [if_pos hrem, if_pos hrem]
  · rw [if_neg hrem, if_neg hrem]
    simp

set_option maxRecDepth 4000 in
/-- C7 counterexample: the claim fails in two ways.  (1) Batches can reach
1025 transactions: loading a single-chunk journal of the 1025 transactions
`0..1024` (serialized as single bytes) delivers one batch of 1025 > 1024
entries, because the code flushes only once `batch.length > 1024`.
(2) A transaction can be delivered twice: the journal of transactions 0 and
5 split into the two chunks `[0,13,10]` and `[5,13,10]` delivers the batches
`[[0],[0,5]]` — transaction 0 twice — because `batch` is not reset after the
per-chunk trailing flush. -/
theorem Jonunal.load_claim_counterexample :
    (∃ b ∈ Jonunal.load (fun l : List Nat => l.headD 0)
        [Jonunal.insertAll (fun n : Nat => [n]) (List.range 1025)], 1024 < b.length)
    ∧ [0, 13, 10] ++ [5, 13, 10] = Jonunal.insertAll (fun n : Nat => [n]) [0, 5]
    ∧ Jonunal.load (fun l : List Nat => l.headD 0) [[0, 13, 10], [5, 13, 10]]
        = [[0], [0, 5]] := by
  refine ⟨?_, by rfl, ?_⟩
  · have hload := load_single_eq (fun l : List Nat => l.headD 0) (fun n : Nat => [n])
      (List.range 1025) [] (fun t _ => ⟨rfl, rfl⟩) rfl
    rw [List.append_nil] at hload
    have hE : emitRec ([] : List Nat) (List.range 1025) = ([List.range 1025], []) :=
      emitRec_exact (List.range 1025) []
        (by rw [Ne, List.range_eq_nil]; norm_num)
        (by rw [List.length_nil, List.length_range])
    rw [hE] at hload
    simp only [List.length_nil, gt_iff_lt, lt_irrefl, if_false, List.append_nil] at hload
    refine ⟨List.range 1025, ?_, by rw [List.length_range]; norm_num⟩
    rw [hload]
    exact List.mem_cons_self _ _
  · have hc1 : processBuffer (fun l : List Nat => l.headD 0) [0, 13, 10] [] = ([], [0], []) :=
      (processBuffer_cont _ _ _ 1 (by decide) (by norm_num)).trans
        (processBuffer_none _ _ _ rfl)
    have hc2 : processBuffer (fun l : List Nat => l.headD 0) [5, 13, 10] [0] = ([], [0, 5], []) :=
      (processBuffer_cont _ _ _ 1 (by decide) (by norm_num)).trans
        (processBuffer_none _ _ _ rfl)
    have hst1 : Jonunal.onData (fun l : List Nat => l.headD 0) ⟨[], [], []⟩ [0, 13, 10]
        = ⟨[], [0], [[0]]⟩ := by
      simp only [Jonunal.onData, List.nil_append, hc1]
      rfl
    have hst2 : Jonunal.onData (fun l : List Nat => l.headD 0) ⟨[], [0], [[0]]⟩ [5, 13, 10]
        = ⟨[], [0, 5], [[0], [0, 5]]⟩ := by
      simp only [Jonunal.onData, List.nil_append, hc2]
      rfl
    show (Jonunal.onData _ (Jonunal.onData _ ⟨[], [], []⟩ [0, 13, 10]) [5, 13, 10]).delivered
      = [[0], [0, 5]]
    rw [hst1, hst2]

/-- C7 (amended): loading a journal of N inserted transactions delivered to
the read stream as a single chunk, possibly followed by trailing bytes that
contain no delimiter (discarded as an incomplete write), yields exactly
those N transactions, each once, in insertion order, in add-callback batches
of at most 1025 transactions (the loop flushes only once a batch exceeds
1024, so a flushed batch holds 1025); transaction serializations are assumed
delimiter-free, as the record format requires.  When the stream delivers
several chunks, an earlier chunk's trailing batch is re-delivered because
the code does not reset `batch` after the trailing flush (see the
counterexample). -/
theorem Jonunal.load_roundtrip {τ : Type} (decode : List Nat → τ) (serialize : τ → List Nat)
    (txs : List τ) (g : List Nat)
    (henc : ∀ t ∈ txs, indexOfDelim (serialize t) = none ∧ decode (serialize t) = t)
    (hg : indexOfDelim g = none) :
    (Jonunal.load decode [Jonunal.insertAll serialize txs ++ g]).flatten = txs
    ∧ ∀ b ∈ Jonunal.load decode [Jonunal.insertAll serialize txs ++ g], b.length ≤ 1025 := by
  rw [load_single_eq decode serialize txs g henc hg]
  have hflat := emitRec_flatten txs ([] : List τ)
  have hsizes := emitRec_sizes txs ([] : List τ) (by norm_num)
  constructor
  · by_cases hrem : (emitRec [] txs).2.length > 0
    · rw [if_pos hrem]
      rw [List.flatten_append]
      simp only [List.flatten_cons, List.flatten_nil, List.append_nil]
      simpa using hflat
    · rw [if_neg hrem]
      have hnil : (emitRec [] txs).2 = [] := by
        simp at hrem
        exact hrem
      rw [hnil, List.append_nil] at hflat
      simpa using hflat
  · intro b hb
    rcases List.mem_append.mp hb with h1 | h1
    · exact hsizes.1 b h1
    · by_cases hrem : (emitRec [] txs).2.length > 0
      · rw [if_pos hrem] at h1
        have hb2 : b = (emitRec [] txs).2 := by simpa using h1
        rw [hb2]
        omega
      · rw [if_neg hrem] at h1
        simp at h1

/-- C7 witness: the amended theorem evaluated on the two transactions 4, 5
(single-byte serializations) followed by one byte of trailing garbage. -/
theorem Jonunal.load_roundtrip_witness :
    (Jonunal.load (fun l : List Nat => l.headD 0)
        [Jonunal.insertAll (fun n : Nat => [n]) [4, 5] ++ [77]]).flatten = [4, 5] :=
  (Jonunal.load_roundtrip (fun l : List Nat => l.headD 0) (fun n : Nat => [n])
    [4, 5] [77] (fun t _ => ⟨rfl, rfl⟩) rfl).1
